import Mathlib

/-!
Verification of the fzyr fuzzy matcher core.

The development shallowly embeds `src/score/mod.rs`, `src/score/config.rs`
and `src/search/parallel.rs`.  Characters are modelled abstractly: a `Chr`
carries its code point, the code-point sequence produced by Rust's
`char::to_lowercase`, the `is_uppercase` / `is_lowercase` classification and
its UTF-8 byte length, so every real Unicode character is an instance.
Scores (`f64` with the two infinite sentinels, no NaN ever arises in this
code) are modelled as exact rationals extended with `negInf` and `posInf`;
all score arithmetic in the source is addition of finite constants and
two-argument maximum, which the rational model reproduces exactly.
-/

/-- Model of a Unicode scalar value as the scoring code observes it:
its code point, the code points of its full lowercase mapping, the two
case predicates, and its UTF-8 byte length. -/
structure Chr where
  code : ℕ
  lower : List ℕ
  isUpper : Bool
  isLower : Bool
  utf8Len : ℕ
deriving DecidableEq, Repr

/-- A string, as the sequence of its characters (code points). -/
abbrev Str := List Chr

/-- Byte length of a string (`str::len` in the source). -/
def strBytes (s : Str) : ℕ := (s.map Chr.utf8Len).sum

/-- Case-folded equality of two characters:
`c.to_lowercase().eq(c2.to_lowercase())` in the source. -/
def foldEq (a b : Chr) : Bool := decide (a.lower = b.lower)

/-- A score: a finite double, or one of the sentinels
`SCORE_MIN` (negative infinity) and `SCORE_MAX` (positive infinity). -/
inductive Score where
  | negInf : Score
  | fin : ℚ → Score
  | posInf : Score
deriving DecidableEq, Repr

/-- `SCORE_GAP_LEADING` from `config.rs`. -/
def SCORE_GAP_LEADING : ℚ := -(5 / 1000)

/-- `SCORE_GAP_INNER` from `config.rs`. -/
def SCORE_GAP_INNER : ℚ := -(10 / 1000)

/-- `SCORE_GAP_TRAILING` from `config.rs`. -/
def SCORE_GAP_TRAILING : ℚ := -(5 / 1000)

/-- `SCORE_MATCH_CONSECUTIVE` from `config.rs`. -/
def SCORE_MATCH_CONSECUTIVE : ℚ := 1

/-- `SCORE_MATCH_SLASH` from `config.rs`. -/
def SCORE_MATCH_SLASH : ℚ := 9 / 10

/-- `SCORE_MATCH_WORD` from `config.rs`. -/
def SCORE_MATCH_WORD : ℚ := 8 / 10

/-- `SCORE_MATCH_CAPITAL` from `config.rs`. -/
def SCORE_MATCH_CAPITAL : ℚ := 7 / 10

/-- `SCORE_MATCH_DOT` from `config.rs`. -/
def SCORE_MATCH_DOT : ℚ := 6 / 10

/-- `CANDIDATE_MAX_BYTES` from `config.rs`. -/
def CANDIDATE_MAX_BYTES : ℕ := 2048

/-- `CANDIDATE_MAX_CHARS` from `config.rs`. -/
def CANDIDATE_MAX_CHARS : ℕ := 1024

/-- Total order on scores (IEEE-754 comparison restricted to non-NaN
doubles with the two infinities). -/
def Score.le : Score → Score → Bool
  | .negInf, _ => true
  | .fin _, .negInf => false
  | .fin a, .fin b => decide (a ≤ b)
  | .fin _, .posInf => true
  | .posInf, .negInf => false
  | .posInf, .fin _ => false
  | .posInf, .posInf => true

/-- Strict order on scores. -/
def Score.lt (a b : Score) : Bool := !(Score.le b a)

/-- Adding a finite constant to a score (`score + gap` etc. in the
source; an infinity absorbs the finite summand, as for `f64`). -/
def Score.addq : Score → ℚ → Score
  | .negInf, _ => .negInf
  | .fin a, x => .fin (a + x)
  | .posInf, _ => .posInf

/-- Two-argument maximum of scores (`f64::max` on non-NaN inputs). -/
def Score.max2 (a b : Score) : Score := if Score.le a b then b else a

theorem Score.le_refl (a : Score) : Score.le a a = true := by
  cases a <;> simp [Score.le]

theorem Score.le_tot (a b : Score) : Score.le a b = true ∨ Score.le b a = true := by
  cases a <;> cases b <;> simp [Score.le] <;> exact le_total _ _

theorem Score.le_trans {a b c : Score} (h1 : Score.le a b = true)
    (h2 : Score.le b c = true) : Score.le a c = true := by
  cases a <;> cases b <;> cases c <;> simp [Score.le] at * <;> exact h1.trans h2

theorem Score.le_asymm {a b : Score} (h1 : Score.le a b = true)
    (h2 : Score.le b a = true) : a = b := by
  cases a <;> cases b <;> simp [Score.le] at * <;> exact le_antisymm h1 h2

theorem Score.lt_iff_not_le {a b : Score} : Score.lt a b = true ↔ ¬ Score.le b a = true := by
  simp [Score.lt]

theorem Score.lt_self (a : Score) : Score.lt a a = false := by
  simp [Score.lt, Score.le_refl]

theorem Score.le_of_not_lt {a b : Score} (h : Score.lt a b = false) : Score.le b a = true := by
  simpa [Score.lt] using h

theorem Score.addq_eq_negInf {a : Score} {x : ℚ} :
    Score.addq a x = Score.negInf ↔ a = Score.negInf := by
  cases a <;> simp [Score.addq]

theorem Score.addq_eq_posInf {a : Score} {x : ℚ} :
    Score.addq a x = Score.posInf ↔ a = Score.posInf := by
  cases a <;> simp [Score.addq]

theorem Score.le_max2_left (a b : Score) : Score.le a (Score.max2 a b) = true := by
  unfold Score.max2
  split
  · assumption
  · exact Score.le_refl a

theorem Score.le_max2_right (a b : Score) : Score.le b (Score.max2 a b) = true := by
  unfold Score.max2
  split
  · exact Score.le_refl b
  · rcases Score.le_tot a b with h | h
    · simp_all
    · exact h

theorem Score.max2_eq_or (a b : Score) : Score.max2 a b = a ∨ Score.max2 a b = b := by
  unfold Score.max2; split <;> simp

theorem Score.ne_negInf_of_le {a b : Score} (h : Score.le a b = true)
    (ha : a ≠ Score.negInf) : b ≠ Score.negInf := by
  cases a <;> cases b <;> simp_all [Score.le]

theorem Score.max2_ne_negInf_left {a b : Score} (ha : a ≠ Score.negInf) :
    Score.max2 a b ≠ Score.negInf :=
  Score.ne_negInf_of_le (Score.le_max2_left a b) ha

theorem Score.max2_ne_negInf_right {a b : Score} (hb : b ≠ Score.negInf) :
    Score.max2 a b ≠ Score.negInf :=
  Score.ne_negInf_of_le (Score.le_max2_right a b) hb

theorem Score.max2_eq_negInf {a b : Score} (h : Score.max2 a b = Score.negInf) :
    a = Score.negInf ∧ b = Score.negInf := by
  constructor
  · by_contra hc; exact Score.max2_ne_negInf_left hc h
  · by_contra hc; exact Score.max2_ne_negInf_right hc h

theorem Score.max2_ne_posInf {a b : Score} (ha : a ≠ Score.posInf)
    (hb : b ≠ Score.posInf) : Score.max2 a b ≠ Score.posInf := by
  rcases Score.max2_eq_or a b with h | h <;> rw [h] <;> assumption

/-- `has_match` from `score/mod.rs`: the two-pointer walk of the source —
the candidate iterator persists across query characters, `any` consumes
candidate characters up to and including the first fold-equal one. -/
def has_match : Str → Str → Bool
  | [], _ => true
  | _ :: _, [] => false
  | qc :: qs, cc :: cs => if foldEq qc cc then has_match qs cs else has_match (qc :: qs) cs

/-- Forward direction of the subsequence characterisation. -/
theorem has_match_sublist : ∀ (c q : Str), has_match q c = true →
    List.Sublist (q.map Chr.lower) (c.map Chr.lower) := by
  intro c
  induction c with
  | nil =>
    intro q h
    cases q with
    | nil => exact List.nil_sublist _
    | cons qc qs => simp [has_match] at h
  | cons cc cs ih =>
    intro q h
    cases q with
    | nil => exact List.nil_sublist _
    | cons qc qs =>
      by_cases hf : foldEq qc cc = true
      · have heq : qc.lower = cc.lower := by simpa [foldEq] using hf
        simp only [has_match, hf, if_pos] at h
        rw [List.map_cons, List.map_cons, heq]
        exact List.Sublist.cons₂ cc.lower (ih qs h)
      · simp only [has_match, hf] at h
        simp only [Bool.false_eq_true, if_false] at h
        rw [List.map_cons]
        exact List.Sublist.cons cc.lower (ih (qc :: qs) h)

/-- Backward direction of the subsequence characterisation. -/
theorem sublist_has_match : ∀ (c q : Str),
    List.Sublist (q.map Chr.lower) (c.map Chr.lower) → has_match q c = true := by
  intro c
  induction c with
  | nil =>
    intro q h
    have : q.map Chr.lower = [] := List.sublist_nil.mp (by simpa using h)
    have hq : q = [] := by simpa using congrArg List.length this
    simp [hq, has_match]
  | cons cc cs ih =>
    intro q h
    cases q with
    | nil => simp [has_match]
    | cons qc qs =>
      by_cases hf : foldEq qc cc = true
      · have heq : qc.lower = cc.lower := by simpa [foldEq] using hf
        have h2 : List.Sublist (qs.map Chr.lower) (cs.map Chr.lower) := by
          rw [List.map_cons, List.map_cons, heq] at h
          exact List.cons_sublist_cons.mp h
        simp [has_match, hf, ih qs h2]
      · have hne : qc.lower ≠ cc.lower := by simpa [foldEq] using hf
        have h2 : List.Sublist ((qc :: qs).map Chr.lower) (cs.map Chr.lower) := by
          rw [List.map_cons, List.map_cons] at h
          rw [List.map_cons]
          generalize hq1 : qc.lower = lq at h hne
          generalize hc1 : cc.lower = lc at h hne
          cases h with
          | cons a htail => exact htail
          | cons₂ => exact absurd rfl hne
        simp [has_match, hf, ih (qc :: qs) h2]

/-- Placeholder character used by `List.getD`; every access in the
development stays within bounds, mirroring the in-bounds matrix and
iterator accesses of the source. -/
def defaultChr : Chr := ⟨0, [], false, false, 0⟩

/-- The character of a string at a position (iterator item `chars().nth`). -/
def chAt (l : Str) (k : ℕ) : Chr := l.getD k defaultChr

/-- The initial `prev_char = '/'` of `candidate_match_bonuses`. -/
def slashChr : Chr := ⟨47, [47], false, false, 1⟩

/-- `is_separator` from `score/mod.rs` (space, hyphen, underscore). -/
def is_separator (c : Chr) : Bool := c.code = 32 || c.code = 45 || c.code = 95

/-- `character_match_bonus` from `score/mod.rs`. -/
def character_match_bonus (current previous : Chr) : ℚ :=
  if current.isUpper && previous.isLower then SCORE_MATCH_CAPITAL
  else if previous.code = 47 then SCORE_MATCH_SLASH
  else if previous.code = 46 then SCORE_MATCH_DOT
  else if is_separator previous then SCORE_MATCH_WORD
  else 0

/-- The stateful map inside `candidate_match_bonuses`: each character is
scored against the previous one. -/
def bonusesFrom (prev : Chr) : Str → List ℚ
  | [] => []
  | x :: xs => character_match_bonus x prev :: bonusesFrom x xs

/-- `candidate_match_bonuses` from `score/mod.rs` (`prev_char` starts as `'/'`). -/
def candidate_match_bonuses (c : Str) : List ℚ := bonusesFrom slashChr c

/-- `match_bonuses[j]` (always accessed in bounds by the source). -/
def bonusAt (c : Str) (j : ℕ) : ℚ := (candidate_match_bonuses c).getD j 0

/-- The per-row gap penalty of `score_internal`: trailing for the last
query row, inner otherwise. -/
def gapScore (q : Str) (i : ℕ) : ℚ :=
  if i = q.length - 1 then SCORE_GAP_TRAILING else SCORE_GAP_INNER

/-- One cell of the `score_internal` loop body.  `prevRow` is the
completed previous matrix row (pairs `(best_score_overall m,
best_score_w_ending m)`), `prev` is the running `prev_score` of the
current row, i.e. the overall score one column to the left. -/
def mkCell (q c : Str) (prevRow : ℕ → Score × Score) (i j : ℕ) (prev : Score) :
    Score × Score :=
  let gap := gapScore q i
  if foldEq (chAt q i) (chAt c j) then
    let ms : Score :=
      if i = 0 then Score.fin ((j : ℚ) * SCORE_GAP_LEADING + bonusAt c j)
      else if j = 0 then Score.negInf
      else
        Score.max2 (Score.addq (prevRow (j - 1)).1 (bonusAt c j))
          (Score.addq (prevRow (j - 1)).2 SCORE_MATCH_CONSECUTIVE)
    (Score.max2 ms (Score.addq prev gap), ms)
  else
    (Score.addq prev gap, Score.negInf)

/-- The inner (column) loop of `score_internal`: the cell at column `j`
of row `i`, threading `prev_score` from the left neighbour. -/
def rowCell (q c : Str) (prevRow : ℕ → Score × Score) (i : ℕ) : ℕ → Score × Score
  | 0 => mkCell q c prevRow i 0 Score.negInf
  | j + 1 => mkCell q c prevRow i (j + 1) (rowCell q c prevRow i j).1

/-- The outer (row) loop of `score_internal`: row `i` as a function of the
column.  Row 0 never reads the previous row, so a dummy is passed. -/
def rowOf (q c : Str) : ℕ → ℕ → Score × Score
  | 0 => rowCell q c (fun _ => (Score.negInf, Score.negInf)) 0
  | i + 1 => rowCell q c (rowOf q c i) (i + 1)

/-- `best_score_overall[[i, j]]` — the matrix D of the specification. -/
def cellD (q c : Str) (i j : ℕ) : Score := (rowOf q c i j).1

/-- `best_score_w_ending[[i, j]]` — the matrix M of the specification. -/
def cellM (q c : Str) (i j : ℕ) : Score := (rowOf q c i j).2

/-- The match-score alternative of a matching cell. -/
def msVal (q c : Str) (i j : ℕ) : Score :=
  if i = 0 then Score.fin ((j : ℚ) * SCORE_GAP_LEADING + bonusAt c j)
  else if j = 0 then Score.negInf
  else
    Score.max2 (Score.addq (cellD q c (i - 1) (j - 1)) (bonusAt c j))
      (Score.addq (cellM q c (i - 1) (j - 1)) SCORE_MATCH_CONSECUTIVE)

/-- The `prev_score` value a cell sees: SCORE_MIN at column 0, otherwise
the overall score one column to the left. -/
def prevCol (q c : Str) (i j : ℕ) : Score :=
  if j = 0 then Score.negInf else cellD q c i (j - 1)

theorem cellM_eq (q c : Str) (i j : ℕ) :
    cellM q c i j =
      if foldEq (chAt q i) (chAt c j) then msVal q c i j else Score.negInf := by
  cases i <;> cases j <;>
    simp only [cellM, cellD, rowOf, rowCell, mkCell, msVal, apply_ite Prod.snd] <;> rfl

theorem cellD_eq (q c : Str) (i j : ℕ) :
    cellD q c i j =
      if foldEq (chAt q i) (chAt c j) then
        Score.max2 (msVal q c i j) (Score.addq (prevCol q c i j) (gapScore q i))
      else Score.addq (prevCol q c i j) (gapScore q i) := by
  cases i <;> cases j <;>
    simp only [cellM, cellD, rowOf, rowCell, mkCell, msVal, prevCol, apply_ite Prod.fst] <;> rfl

/-- `ScoreResult` from `score/mod.rs`. -/
structure ScoreResult where
  candidate_index : ℕ
  score : Score
deriving DecidableEq, Repr

/-- `LocateResult` from `score/mod.rs`; the `BitVec` mask is a list of
bits indexed by candidate character position. -/
structure LocateResult where
  candidate_index : ℕ
  score : Score
  match_mask : List Bool
deriving DecidableEq, Repr

/-- `LengthsOrScore` from `score/mod.rs`. -/
inductive LengthsOrScore where
  | Lengths : ℕ → ℕ → LengthsOrScore
  | Score : Score → LengthsOrScore
deriving DecidableEq, Repr

/-- `get_lengths` from `score/mod.rs`.  Note the order of the checks: the
byte cap and empty query first, then equal character counts (SCORE_MAX),
and only then the character cap. -/
def get_lengths (q c : Str) : LengthsOrScore :=
  if strBytes c > CANDIDATE_MAX_BYTES ∨ strBytes q = 0 then
    LengthsOrScore.Score Score.negInf
  else if q.length = c.length then LengthsOrScore.Score Score.posInf
  else if c.length > CANDIDATE_MAX_CHARS then LengthsOrScore.Score Score.negInf
  else LengthsOrScore.Lengths q.length c.length

/-- `score_inner` from `score/mod.rs`.  `none` models the index-underflow
panic of `best_score_overall[[q_len - 1, c_len - 1]]` when `c_len = 0`,
which is reachable exactly for a non-empty query and an empty candidate. -/
def score_inner (q c : Str) (index : ℕ) : Option ScoreResult :=
  match get_lengths q c with
  | .Score s => some ⟨index, s⟩
  | .Lengths q_len c_len =>
    if c_len = 0 then none
    else some ⟨index, cellD q c (q_len - 1) (c_len - 1)⟩

/-- `score` from `score/mod.rs`. -/
def score (q c : Str) : Option ScoreResult := score_inner q c 0

/-- The walk predicate of `locate_inner`:
`best_score_w_ending[[i, j]] != SCORE_MIN && best_score_w_ending[[i, j]]
== best_score_overall[[i, j]]`. -/
def goodCell (q c : Str) (i j : ℕ) : Bool :=
  decide (cellM q c i j ≠ Score.negInf) && decide (cellM q c i j = cellD q c i j)

/-- The inner reverse scan of the `locate_inner` walk: the first column
at or below `j` (scanning downward) satisfying the walk predicate for
row `i`. -/
def findCol (q c : Str) (i : ℕ) : ℕ → Option ℕ
  | 0 => if goodCell q c i 0 then some 0 else none
  | j + 1 => if goodCell q c i (j + 1) then some (j + 1) else findCol q c i j

/-- The backward walk of `locate_inner`, from row `i` scanning candidate
columns downward from `s`: the list of mask positions that get set, most
significant first.  When the candidate iterator is exhausted (no column
found, or a match at column 0 with query rows remaining), the remaining
outer iterations set nothing, as in the source. -/
def walkPositions (q c : Str) : ℕ → ℕ → List ℕ
  | 0, s =>
    match findCol q c 0 s with
    | none => []
    | some j => [j]
  | i + 1, s =>
    match findCol q c (i + 1) s with
    | none => []
    | some j =>
      j :: (match j with
        | 0 => []
        | jj + 1 => walkPositions q c i jj)

/-- `locate_inner` from `score/mod.rs`.  The mask starts all clear
(`BitVec::from_elem(candidate_size, false)`); on the SCORE_MAX
short-circuit it is set entirely; in the matrix branch the walk sets its
positions.  `none` models the same empty-candidate panic as
`score_inner`. -/
def locate_inner (q c : Str) (index : ℕ) : Option LocateResult :=
  match get_lengths q c with
  | .Score s =>
    some ⟨index, s,
      if s = Score.posInf then List.replicate c.length true
      else List.replicate c.length false⟩
  | .Lengths q_len c_len =>
    if c_len = 0 then none
    else
      some ⟨index, cellD q c (q_len - 1) (c_len - 1),
        (walkPositions q c (q_len - 1) (c_len - 1)).foldl
          (fun m j => m.set j true) (List.replicate c.length false)⟩

/-- `locate` from `score/mod.rs`. -/
def locate (q c : Str) : Option LocateResult := locate_inner q c 0

/-- Modelled from the spec: the stable insertion step of the §4.6 sort —
descending by score, a new element passes every strictly higher score and
stops at the first score not above its own, so earlier (smaller-index)
elements stay in front on ties. -/
def insertRes (x : ScoreResult) : List ScoreResult → List ScoreResult
  | [] => [x]
  | y :: ys => if Score.lt x.score y.score then y :: insertRes x ys else x :: y :: ys

/-- Modelled from the spec: the §4.6 sort of a worker's result vector,
descending score with stable ties. -/
def sortResults : List ScoreResult → List ScoreResult
  | [] => []
  | x :: xs => insertRes x (sortResults xs)

/-- Modelled from the spec: the scan of `search_worker` (§4.6) — for each
candidate with its index, keep it exactly when `has_match` holds, scored by
`score_inner` at its global index.  `has_match` guarantees the panic
branch of `score_inner` is unreachable here, so the default is never
used. -/
def worker_scan (q : Str) (off : ℕ) : List Str → List ScoreResult
  | [] => []
  | c :: cs =>
    if has_match q c then
      ((score_inner q c off).getD ⟨off, Score.negInf⟩) :: worker_scan q (off + 1) cs
    else worker_scan q (off + 1) cs

/-- Modelled from the spec: `search_worker` (§4.6) — prefilter, score,
then sort descending with stable ties.  This is the missing serial driver
that `search_internal` in `parallel.rs` calls. -/
def search_worker (q : Str) (cands : List Str) (off : ℕ) : List ScoreResult :=
  sortResults (worker_scan q off cands)

/-- Modelled from the spec: `search_serial` (§4.6/§6) over an in-memory
candidate list. -/
def search_serial (q : Str) (cands : List Str) : List ScoreResult :=
  search_worker q cands 0

/-- `ceil_div` from `search/parallel.rs`. -/
def ceil_div (a b : ℕ) : ℕ := (a + b - 1) / b

/-- `calculate_parallelism` from `search/parallel.rs`. -/
def calculate_parallelism (candidate_count configured_parallelism : ℕ)
    (empty_query : Bool) : ℕ :=
  if empty_query then 1
  else
    let ramped_parallelism :=
      if candidate_count < 17 then ceil_div candidate_count 4
      else if candidate_count > 32 then ceil_div candidate_count 8
      else 4
    max (min (min configured_parallelism ramped_parallelism) candidate_count) 1

/-- The sharding loop of `search_internal` in `parallel.rs`: state is
`(remaining_candidates, candidates, thread_offset)`.  When the remaining
count is positive but below the per-thread share, the source sets
`remaining_candidates = 0` and then splits at that already-zeroed value,
so the final partial shard is an empty slice and its candidates are
dropped.  (`per_thread_count = 0` cannot reach this loop: the parallel
branch requires `parallelism ≥ 2` and at least that many candidates.) -/
def shardLoop (ptc : ℕ) : ℕ → List Str → ℕ → List (List Str × ℕ)
  | 0, _, _ => []
  | r + 1, cands, off =>
    if _h : ptc ≤ r + 1 ∧ 0 < ptc then
      (cands.take ptc, off) :: shardLoop ptc (r + 1 - ptc) (cands.drop ptc) (off + ptc)
    else
      [(cands.take 0, off)]
termination_by r => r
decreasing_by omega

/-- Binary sorted merge in the result order (descending score), the
earlier stream winning ties; `itertools::kmerge` restricted to the shapes
this development evaluates. -/
def merge2 : List ScoreResult → List ScoreResult → List ScoreResult
  | [], ys => ys
  | xs, [] => xs
  | x :: xs, y :: ys =>
    if Score.lt x.score y.score then y :: merge2 (x :: xs) ys
    else x :: merge2 xs (y :: ys)
termination_by xs ys => xs.length + ys.length
decreasing_by all_goals simp only [List.length_cons]; omega

/-- K-way merge of the per-shard batches.  Batch arrival order on the
channel is modelled as spawn order. -/
def kmergeAll (batches : List (List ScoreResult)) : List ScoreResult :=
  batches.foldl merge2 []

/-- `search_internal` from `search/parallel.rs`, specialised to
`score_inner` (i.e. `search_score`): compute the adaptive parallelism;
below 2 run the single worker, otherwise shard, run a worker per shard
with its base offset, and k-way merge the sorted batches. -/
def search_score (q : Str) (candidates : List Str) (parallelism : ℕ) :
    List ScoreResult :=
  let p := calculate_parallelism candidates.length parallelism (decide (strBytes q = 0))
  if p < 2 then search_worker q candidates 0
  else
    kmergeAll ((shardLoop (ceil_div candidates.length p) candidates.length candidates 0).map
      (fun sh => search_worker q sh.1 sh.2))

/-- The result order of the spec (§3): strictly higher score first,
equal scores broken by ascending candidate index. -/
def ResultBefore (x y : ScoreResult) : Prop :=
  Score.lt y.score x.score = true ∨
    (y.score = x.score ∧ x.candidate_index < y.candidate_index)

theorem ResultBefore_trans {x y z : ScoreResult} (h1 : ResultBefore x y)
    (h2 : ResultBefore y z) : ResultBefore x z := by
  rcases h1 with h1 | ⟨h1e, h1i⟩ <;> rcases h2 with h2 | ⟨h2e, h2i⟩
  · left
    rw [Score.lt_iff_not_le] at *
    intro hac
    rcases Score.le_tot y.score z.score with hyz | hzy
    · exact h2 hyz
    · exact h1 (Score.le_trans hac hzy)
  · left; rw [h2e]; exact h1
  · left; rw [← h1e]; exact h2
  · right; exact ⟨h2e.trans h1e, h1i.trans h2i⟩

theorem insertRes_perm (x : ScoreResult) :
    ∀ l : List ScoreResult, (insertRes x l).Perm (x :: l) := by
  intro l
  induction l with
  | nil => exact List.Perm.refl _
  | cons y ys ih =>
    unfold insertRes
    split
    · exact (ih.cons y).trans (List.Perm.swap x y ys)
    · exact List.Perm.refl _

theorem mem_insertRes {x z : ScoreResult} {l : List ScoreResult}
    (h : z ∈ insertRes x l) : z = x ∨ z ∈ l := by
  have := (insertRes_perm x l).mem_iff.mp h
  simpa using this

theorem insertRes_pairwise {x : ScoreResult} : ∀ {l : List ScoreResult},
    List.Pairwise ResultBefore l →
    (∀ y ∈ l, x.candidate_index < y.candidate_index) →
    List.Pairwise ResultBefore (insertRes x l) := by
  intro l
  induction l with
  | nil => intro _ _; simp [insertRes]
  | cons y ys ih =>
    intro hl hidx
    rw [List.pairwise_cons] at hl
    obtain ⟨hy, hys⟩ := hl
    unfold insertRes
    split
    · rename_i hlt
      rw [List.pairwise_cons]
      refine ⟨?_, ih hys (fun z hz => hidx z (List.mem_cons_of_mem y hz))⟩
      intro z hz
      rcases mem_insertRes hz with rfl | hz2
      · exact Or.inl hlt
      · exact hy z hz2
    · rename_i hnlt
      have hylex : Score.le y.score x.score = true :=
        Score.le_of_not_lt (by simpa using hnlt)
      have hxy : ResultBefore x y := by
        by_cases hlt2 : Score.lt y.score x.score = true
        · exact Or.inl hlt2
        · have hxley : Score.le x.score y.score = true :=
            Score.le_of_not_lt (by simpa using hlt2)
          exact Or.inr ⟨Score.le_asymm hylex hxley, hidx y (List.mem_cons_self y ys)⟩
      rw [List.pairwise_cons]
      refine ⟨?_, List.pairwise_cons.mpr ⟨hy, hys⟩⟩
      intro z hz
      rcases List.mem_cons.mp hz with rfl | hz2
      · exact hxy
      · exact ResultBefore_trans hxy (hy z hz2)

theorem sortResults_perm : ∀ l : List ScoreResult, (sortResults l).Perm l := by
  intro l
  induction l with
  | nil => exact List.Perm.refl _
  | cons x xs ih => exact (insertRes_perm x (sortResults xs)).trans (ih.cons x)

theorem sortResults_pairwise : ∀ l : List ScoreResult,
    List.Pairwise (fun a b => a.candidate_index < b.candidate_index) l →
    List.Pairwise ResultBefore (sortResults l) := by
  intro l
  induction l with
  | nil => intro _; simp [sortResults]
  | cons x xs ih =>
    intro h
    rw [List.pairwise_cons] at h
    exact insertRes_pairwise (ih h.2)
      (fun y hy => h.1 y ((sortResults_perm xs).mem_iff.mp hy))

theorem sortResults_of_const_score {s : Score} : ∀ {l : List ScoreResult},
    (∀ r ∈ l, r.score = s) → sortResults l = l := by
  intro l
  induction l with
  | nil => intro _; rfl
  | cons x xs ih =>
    intro h
    have hxs : sortResults xs = xs := ih (fun r hr => h r (List.mem_cons_of_mem x hr))
    unfold sortResults
    rw [hxs]
    cases xs with
    | nil => rfl
    | cons y ys =>
      unfold insertRes
      have : Score.lt x.score y.score = false := by
        rw [h x (List.mem_cons_self _ _), h y (List.mem_cons_of_mem x (List.mem_cons_self _ _))]
        exact Score.lt_self s
      simp [this]

theorem score_inner_index (q c : Str) (off : ℕ) :
    ((score_inner q c off).getD ⟨off, Score.negInf⟩).candidate_index = off := by
  unfold score_inner
  cases get_lengths q c with
  | Score s => rfl
  | Lengths ql cl => by_cases h : cl = 0 <;> simp [h]

theorem worker_scan_map_index (q : Str) : ∀ (cs : List Str) (off : ℕ),
    (worker_scan q off cs).map (fun r => r.candidate_index) =
      ((List.range cs.length).filter
        (fun k => has_match q (cs.getD k []))).map (fun k => k + off) := by
  intro cs
  induction cs with
  | nil => intro off; rfl
  | cons c cs ih =>
    intro off
    have hcomp : ((fun k => k + off) ∘ (fun k => k + 1)) = (fun k => k + (off + 1)) := by
      funext k; simp only [Function.comp]; omega
    have hfilter :
        ((List.range cs.length).map (fun k => k + 1)).filter
            (fun k => has_match q ((c :: cs).getD k [])) =
          ((List.range cs.length).filter
            (fun k => has_match q (cs.getD k []))).map (fun k => k + 1) := by
      rw [List.filter_map]
      congr 1
    rw [List.length_cons, List.range_succ_eq_map, List.filter_cons]
    by_cases hm : has_match q c = true
    · simp only [worker_scan, hm, if_true, List.map_cons, score_inner_index,
        List.getD_cons_zero, hfilter, List.map_map, hcomp, Nat.zero_add, ih (off + 1)]
    · simp only [worker_scan, hm, Bool.false_eq_true, if_false, List.getD_cons_zero,
        hfilter, List.map_map, hcomp, ih (off + 1)]

theorem worker_scan_index_lb (q : Str) : ∀ (cs : List Str) (off : ℕ),
    ∀ r ∈ worker_scan q off cs, off ≤ r.candidate_index := by
  intro cs
  induction cs with
  | nil => intro off r hr; simp [worker_scan] at hr
  | cons c cs ih =>
    intro off r hr
    unfold worker_scan at hr
    by_cases hm : has_match q c = true
    · rw [if_pos hm] at hr
      rcases List.mem_cons.mp hr with rfl | hr2
      · rw [score_inner_index]
      · exact (Nat.le_succ off).trans (ih (off + 1) _ hr2)
    · rw [if_neg hm] at hr
      exact (Nat.le_succ off).trans (ih (off + 1) _ hr)

theorem worker_scan_pairwise (q : Str) : ∀ (cs : List Str) (off : ℕ),
    List.Pairwise (fun a b => a.candidate_index < b.candidate_index)
      (worker_scan q off cs) := by
  intro cs
  induction cs with
  | nil => intro off; simp [worker_scan]
  | cons c cs ih =>
    intro off
    unfold worker_scan
    by_cases hm : has_match q c = true
    · rw [if_pos hm, List.pairwise_cons]
      refine ⟨?_, ih (off + 1)⟩
      intro r hr
      rw [score_inner_index]
      exact Nat.lt_of_lt_of_le (Nat.lt_succ_self off) (worker_scan_index_lb q cs (off + 1) r hr)
    · rw [if_neg hm]
      exact ih (off + 1)

/-- The character `'a'` (lowercase ASCII). -/
def chA : Chr := ⟨97, [97], false, true, 1⟩

/-- The character `'b'` (lowercase ASCII). -/
def chB : Chr := ⟨98, [98], false, true, 1⟩

theorem get_lengths_lengths {q c : Str} (hb : strBytes c ≤ CANDIDATE_MAX_BYTES)
    (hq : 0 < strBytes q) (hne : q.length ≠ c.length)
    (hc : c.length ≤ CANDIDATE_MAX_CHARS) :
    get_lengths q c = LengthsOrScore.Lengths q.length c.length := by
  unfold get_lengths
  rw [if_neg (by omega), if_neg hne, if_neg (by omega)]

/-- C7: for every non-empty string s (at least one byte) with byte length
at most CANDIDATE_MAX_BYTES = 2048 and character length at most
CANDIDATE_MAX_CHARS = 1024, `score(s, s)` is SCORE_MAX and `locate(s, s)`
sets every bit of the match mask. -/
theorem score_reflexivity (s : Str) (h0 : 0 < strBytes s)
    (hb : strBytes s ≤ CANDIDATE_MAX_BYTES) (_hc : s.length ≤ CANDIDATE_MAX_CHARS) :
    score s s = some ⟨0, Score.posInf⟩ ∧
    locate s s = some ⟨0, Score.posInf, List.replicate s.length true⟩ := by
  have hget : get_lengths s s = LengthsOrScore.Score Score.posInf := by
    unfold get_lengths
    rw [if_neg (by omega), if_pos rfl]
  constructor
  · unfold score score_inner
    rw [hget]
  · unfold locate locate_inner
    rw [hget]
    simp

/-- Witness for C7 at the one-character string "a". -/
theorem score_reflexivity_witness :
    score [chA] [chA] = some ⟨0, Score.posInf⟩ ∧
    locate [chA] [chA] = some ⟨0, Score.posInf, List.replicate 1 true⟩ :=
  score_reflexivity [chA] (by decide) (by decide) (by decide)

theorem strBytes_replicate (n : ℕ) (x : Chr) :
    strBytes (List.replicate n x) = n * x.utf8Len := by
  simp [strBytes, List.map_replicate, List.sum_replicate, smul_eq_mul]

/-- C9 counterexample: a candidate of 1025 characters (over
CANDIDATE_MAX_CHARS) with the query equal to it scores SCORE_MAX, not
SCORE_MIN — the equal-character-count check of `get_lengths` runs before
the character cap. -/
theorem c9_counterexample :
    (List.replicate 1025 chA : Str).length > CANDIDATE_MAX_CHARS ∧
    score (List.replicate 1025 chA) (List.replicate 1025 chA) =
      some ⟨0, Score.posInf⟩ := by
  constructor
  · rw [List.length_replicate]; decide
  · have hbytes : strBytes (List.replicate 1025 chA) = 1025 := by
      rw [strBytes_replicate]; rfl
    have heq : (List.replicate 1025 chA : Str).length = (List.replicate 1025 chA : Str).length := rfl
    unfold score score_inner get_lengths
    rw [if_neg (by rw [hbytes]; decide), if_pos heq]

/-- C9 (amended): an over-cap candidate yields SCORE_MIN provided — for
the character cap — the query and candidate character counts differ; the
byte cap alone always yields SCORE_MIN.  In both cases the short-circuit
fires before any matrix is built. -/
theorem c9_amended (q c : Str)
    (h : strBytes c > CANDIDATE_MAX_BYTES ∨
      (c.length > CANDIDATE_MAX_CHARS ∧ q.length ≠ c.length)) :
    score q c = some ⟨0, Score.negInf⟩ := by
  unfold score score_inner get_lengths
  rcases h with h | ⟨hc, hne⟩
  · rw [if_pos (Or.inl h)]
  · by_cases hb : strBytes c > CANDIDATE_MAX_BYTES ∨ strBytes q = 0
    · rw [if_pos hb]
    · rw [if_neg hb, if_neg hne, if_pos hc]

/-- Witness for the amended C9 at query "a" and a 1025-character candidate. -/
theorem c9_amended_witness :
    score [chA] (List.replicate 1025 chB) = some ⟨0, Score.negInf⟩ :=
  c9_amended [chA] (List.replicate 1025 chB)
    (Or.inr ⟨by rw [List.length_replicate]; decide, by rw [List.length_replicate]; decide⟩)

theorem worker_scan_empty_query : ∀ (cs : List Str) (off : ℕ),
    worker_scan [] off cs =
      (List.range cs.length).map (fun k => ⟨k + off, Score.negInf⟩) := by
  intro cs
  induction cs with
  | nil => intro off; rfl
  | cons c cs ih =>
    intro off
    have hscore : score_inner [] c off = some ⟨off, Score.negInf⟩ := by
      unfold score_inner get_lengths
      have hcond : strBytes c > CANDIDATE_MAX_BYTES ∨ strBytes ([] : Str) = 0 := Or.inr rfl
      rw [if_pos hcond]
    have hmatch : has_match [] c = true := by simp [has_match]
    unfold worker_scan
    rw [if_pos hmatch, hscore, ih (off + 1), List.length_cons, List.range_succ_eq_map,
      List.map_cons, List.map_map]
    have : ((fun k => (⟨k + off, Score.negInf⟩ : ScoreResult)) ∘ (fun k => k + 1)) =
        (fun k => (⟨k + (off + 1), Score.negInf⟩ : ScoreResult)) := by
      funext k
      simp only [Function.comp]
      congr 1
      omega
    rw [this]
    simp

/-- C10: for every candidate, `score("", c)` is SCORE_MIN and
`has_match("", c)` holds; consequently a search with the empty query
returns every candidate, each with score SCORE_MIN, in ascending index
order (the empty query forces parallelism 1, so the parallel entry point
runs the single worker). -/
theorem empty_query_search (c : Str) (cs : List Str) (P : ℕ) :
    score [] c = some ⟨0, Score.negInf⟩ ∧ has_match [] c = true ∧
    search_serial [] cs = (List.range cs.length).map (fun k => ⟨k, Score.negInf⟩) ∧
    search_score [] cs P = (List.range cs.length).map (fun k => ⟨k, Score.negInf⟩) := by
  have hworker : search_worker [] cs 0 =
      (List.range cs.length).map (fun k => ⟨k, Score.negInf⟩) := by
    unfold search_worker
    rw [worker_scan_empty_query cs 0]
    rw [sortResults_of_const_score (s := Score.negInf) ?hconst]
    case hconst =>
      intro r hr
      rcases List.mem_map.mp hr with ⟨k, _, rfl⟩
      rfl
    simp
  refine ⟨?_, by simp [has_match], hworker, ?_⟩
  · unfold score score_inner get_lengths
    have hcond : strBytes c > CANDIDATE_MAX_BYTES ∨ strBytes ([] : Str) = 0 := Or.inr rfl
    rw [if_pos hcond]
  · have hp : calculate_parallelism cs.length P (decide (strBytes ([] : Str) = 0)) = 1 := rfl
    unfold search_score
    rw [hp, if_pos (by omega)]
    exact hworker

/-- C3: the serial search (modelled from the spec, §4.6) returns exactly
one result per matching candidate — the multiset of returned candidate
indices is the set of indices whose candidate passes `has_match`, so in
particular the count matches — and the sequence is sorted by strictly
descending score with ties broken by ascending candidate index. -/
theorem serial_filter_sorted (q : Str) (cs : List Str) :
    (search_serial q cs).length =
      ((List.range cs.length).filter (fun k => has_match q (cs.getD k []))).length ∧
    ((search_serial q cs).map (fun r => r.candidate_index)).Perm
      ((List.range cs.length).filter (fun k => has_match q (cs.getD k []))) ∧
    List.Pairwise ResultBefore (search_serial q cs) := by
  have hperm : (search_serial q cs).Perm (worker_scan q 0 cs) := sortResults_perm _
  have hmap : ((search_serial q cs).map (fun r => r.candidate_index)).Perm
      ((List.range cs.length).filter (fun k => has_match q (cs.getD k []))) := by
    have h1 := hperm.map (fun r => r.candidate_index)
    rw [worker_scan_map_index] at h1
    simpa using h1
  refine ⟨?_, hmap, sortResults_pairwise _ (worker_scan_pairwise q cs 0)⟩
  have := hmap.length_eq
  simpa using this

theorem cellM_le_cellD (q c : Str) (i j : ℕ) :
    Score.le (cellM q c i j) (cellD q c i j) = true := by
  rw [cellM_eq, cellD_eq]
  by_cases h : foldEq (chAt q i) (chAt c j) = true
  · rw [if_pos h, if_pos h]
    exact Score.le_max2_left _ _
  · rw [if_neg h, if_neg h]
    rfl

theorem cellD_cellM_ne_posInf (q c : Str) : ∀ i j,
    cellD q c i j ≠ Score.posInf ∧ cellM q c i j ≠ Score.posInf := by
  intro i
  induction i with
  | zero =>
    intro j
    induction j with
    | zero =>
      have hm : msVal q c 0 0 ≠ Score.posInf := by simp [msVal]
      have hp : Score.addq (prevCol q c 0 0) (gapScore q 0) ≠ Score.posInf := by
        rw [Ne, Score.addq_eq_posInf]
        simp [prevCol]
      constructor
      · rw [cellD_eq]
        split
        · exact Score.max2_ne_posInf hm hp
        · exact hp
      · rw [cellM_eq]
        split
        · exact hm
        · simp
    | succ jj ihj =>
      have hm : msVal q c 0 (jj + 1) ≠ Score.posInf := by simp [msVal]
      have hp : Score.addq (prevCol q c 0 (jj + 1)) (gapScore q 0) ≠ Score.posInf := by
        rw [Ne, Score.addq_eq_posInf]
        simpa [prevCol] using ihj.1
      constructor
      · rw [cellD_eq]
        split
        · exact Score.max2_ne_posInf hm hp
        · exact hp
      · rw [cellM_eq]
        split
        · exact hm
        · simp
  | succ ii ihi =>
    intro j
    induction j with
    | zero =>
      have hm : msVal q c (ii + 1) 0 ≠ Score.posInf := by simp [msVal]
      have hp : Score.addq (prevCol q c (ii + 1) 0) (gapScore q (ii + 1)) ≠ Score.posInf := by
        rw [Ne, Score.addq_eq_posInf]
        simp [prevCol]
      constructor
      · rw [cellD_eq]
        split
        · exact Score.max2_ne_posInf hm hp
        · exact hp
      · rw [cellM_eq]
        split
        · exact hm
        · simp
    | succ jj ihj =>
      have hm : msVal q c (ii + 1) (jj + 1) ≠ Score.posInf := by
        have h1 : Score.addq (cellD q c ii jj) (bonusAt c (jj + 1)) ≠ Score.posInf := by
          rw [Ne, Score.addq_eq_posInf]
          exact (ihi jj).1
        have h2 : Score.addq (cellM q c ii jj) SCORE_MATCH_CONSECUTIVE ≠ Score.posInf := by
          rw [Ne, Score.addq_eq_posInf]
          exact (ihi jj).2
        simpa [msVal] using Score.max2_ne_posInf h1 h2
      have hp : Score.addq (prevCol q c (ii + 1) (jj + 1)) (gapScore q (ii + 1)) ≠
          Score.posInf := by
        rw [Ne, Score.addq_eq_posInf]
        simpa [prevCol] using ihj.1
      constructor
      · rw [cellD_eq]
        split
        · exact Score.max2_ne_posInf hm hp
        · exact hp
      · rw [cellM_eq]
        split
        · exact hm
        · simp

theorem cellD_succ_ne_negInf {q c : Str} {i j : ℕ}
    (h : cellD q c i j ≠ Score.negInf) : cellD q c i (j + 1) ≠ Score.negInf := by
  have hp : Score.addq (prevCol q c i (j + 1)) (gapScore q i) ≠ Score.negInf := by
    rw [Ne, Score.addq_eq_negInf]
    simpa [prevCol] using h
  rw [cellD_eq]
  split
  · exact Score.max2_ne_negInf_right hp
  · exact hp

theorem take_succ_chAt (l : Str) (n : ℕ) (h : n < l.length) :
    l.take (n + 1) = l.take n ++ [chAt l n] := by
  rw [List.take_succ]
  congr 1
  rw [List.getElem?_eq_getElem h]
  simp [chAt, List.getD_eq_getElem?_getD, List.getElem?_eq_getElem h]

theorem snoc_sublist_snoc {α : Type} {A B : List α} {a b : α}
    (h : List.Sublist (A ++ [a]) (B ++ [b])) :
    List.Sublist (A ++ [a]) B ∨ (a = b ∧ List.Sublist A B) := by
  have h2 : List.Sublist (a :: A.reverse) (b :: B.reverse) := by
    have := List.reverse_sublist.mpr h
    simpa [List.reverse_append] using this
  cases h2 with
  | cons x htail =>
    left
    have h3 : List.Sublist ((A ++ [a]).reverse) B.reverse := by
      simpa [List.reverse_append] using htail
    exact List.reverse_sublist.mp h3
  | cons₂ x htail =>
    right
    exact ⟨rfl, List.reverse_sublist.mp htail⟩

theorem Score.eq_negInf_of_le {a : Score} (h : Score.le a Score.negInf = true) :
    a = Score.negInf := by
  cases a <;> simp_all [Score.le]

/-- A case-folded embedding of the first `i + 1` query characters into the
first `j + 1` candidate characters forces the overall matrix entry
`D[i, j]` to be finite or SCORE_MAX-free — in particular not SCORE_MIN. -/
theorem sublist_cellD_ne_negInf (q c : Str) : ∀ j i, i < q.length → j < c.length →
    List.Sublist ((q.take (i + 1)).map Chr.lower) ((c.take (j + 1)).map Chr.lower) →
    cellD q c i j ≠ Score.negInf := by
  intro j
  induction j using Nat.strong_induction_on with
  | _ j ihj =>
    intro i hi hj hsub
    rw [take_succ_chAt q i hi, take_succ_chAt c j hj, List.map_append, List.map_append] at hsub
    simp only [List.map_cons, List.map_nil] at hsub
    rcases snoc_sublist_snoc hsub with hL | ⟨heq, hR⟩
    · have hlen : i + 1 ≤ j := by
        have h1 := hL.length_le
        rw [List.length_append, List.length_map, List.length_map, List.length_take,
          List.length_take, List.length_singleton] at h1
        omega
      obtain ⟨jj, rfl⟩ : ∃ jj, j = jj + 1 := ⟨j - 1, by omega⟩
      apply cellD_succ_ne_negInf
      apply ihj jj (by omega) i hi (by omega)
      rw [take_succ_chAt q i hi, List.map_append]
      simpa using hL
    · have hfold : foldEq (chAt q i) (chAt c j) = true := by simp [foldEq, heq]
      rw [cellD_eq, if_pos hfold]
      apply Score.max2_ne_negInf_left
      cases i with
      | zero => simp [msVal]
      | succ ii =>
        have hlen2 : ii + 1 ≤ j := by
          have h1 := hR.length_le
          rw [List.length_map, List.length_map, List.length_take, List.length_take] at h1
          omega
        obtain ⟨jj, rfl⟩ : ∃ jj, j = jj + 1 := ⟨j - 1, by omega⟩
        have hD : cellD q c ii jj ≠ Score.negInf := by
          apply ihj jj (by omega) ii (by omega) (by omega)
          exact hR
        have h1 : Score.addq (cellD q c ii jj) (bonusAt c (jj + 1)) ≠ Score.negInf := by
          rw [Ne, Score.addq_eq_negInf]
          exact hD
        have hmsv : msVal q c (ii + 1) (jj + 1) =
            Score.max2 (Score.addq (cellD q c ii jj) (bonusAt c (jj + 1)))
              (Score.addq (cellM q c ii jj) SCORE_MATCH_CONSECUTIVE) := by
          simp [msVal]
        rw [hmsv]
        exact Score.max2_ne_negInf_left h1

/-- A SCORE_MIN-free overall matrix entry `D[i, j]` yields a case-folded
embedding of the first `i + 1` query characters into the first `j + 1`
candidate characters. -/
theorem cellD_ne_negInf_sublist (q c : Str) : ∀ j i, i < q.length → j < c.length →
    cellD q c i j ≠ Score.negInf →
    List.Sublist ((q.take (i + 1)).map Chr.lower) ((c.take (j + 1)).map Chr.lower) := by
  intro j
  induction j using Nat.strong_induction_on with
  | _ j ihj =>
    intro i hi hj h
    rw [cellD_eq] at h
    by_cases hm : foldEq (chAt q i) (chAt c j) = true
    · rw [if_pos hm] at h
      by_cases hMS : msVal q c i j = Score.negInf
      · have hpg : Score.addq (prevCol q c i j) (gapScore q i) ≠ Score.negInf := by
          intro hc2
          apply h
          rw [hMS, hc2]
          rfl
        have hprev : prevCol q c i j ≠ Score.negInf := by
          intro hc2
          apply hpg
          rw [hc2]
          rfl
        have hj0 : j ≠ 0 := by
          intro hj0
          apply hprev
          simp [prevCol, hj0]
        obtain ⟨jj, rfl⟩ : ∃ jj, j = jj + 1 := ⟨j - 1, by omega⟩
        have hprev2 : cellD q c i jj ≠ Score.negInf := by
          simpa [prevCol] using hprev
        have hs := ihj jj (by omega) i hi (by omega) hprev2
        rw [take_succ_chAt c (jj + 1) hj, List.map_append]
        exact hs.trans (List.sublist_append_left _ _)
      · have heq : (chAt q i).lower = (chAt c j).lower := by simpa [foldEq] using hm
        cases i with
        | zero =>
          rw [take_succ_chAt q 0 hi, take_succ_chAt c j hj, List.map_append, List.map_append]
          simp only [List.take_zero, List.map_nil, List.nil_append, List.map_cons]
          rw [heq]
          have := List.Sublist.append
            (List.nil_sublist ((c.take j).map Chr.lower)) (List.Sublist.refl [(chAt c j).lower])
          simpa using this
        | succ ii =>
          have hj0 : j ≠ 0 := by
            intro hj0
            subst hj0
            simp [msVal] at hMS
          obtain ⟨jj, rfl⟩ : ∃ jj, j = jj + 1 := ⟨j - 1, by omega⟩
          have hmsv : msVal q c (ii + 1) (jj + 1) =
              Score.max2 (Score.addq (cellD q c ii jj) (bonusAt c (jj + 1)))
                (Score.addq (cellM q c ii jj) SCORE_MATCH_CONSECUTIVE) := by
            simp [msVal]
          rw [hmsv] at hMS
          have hDne : cellD q c ii jj ≠ Score.negInf := by
            by_contra hD0
            apply hMS
            have hM0 : cellM q c ii jj = Score.negInf := by
              have hle := cellM_le_cellD q c ii jj
              rw [hD0] at hle
              exact Score.eq_negInf_of_le hle
            rw [hD0, hM0]
            rfl
          have hs := ihj jj (by omega) ii (by omega) (by omega) hDne
          rw [take_succ_chAt q (ii + 1) hi, take_succ_chAt c (jj + 1) hj,
            List.map_append, List.map_append]
          simp only [List.map_cons, List.map_nil]
          rw [heq]
          exact List.Sublist.append hs (List.Sublist.refl _)
    · rw [if_neg hm] at h
      have hprev : prevCol q c i j ≠ Score.negInf := by
        intro hc2
        apply h
        rw [hc2]
        rfl
      have hj0 : j ≠ 0 := by
        intro hj0
        apply hprev
        simp [prevCol, hj0]
      obtain ⟨jj, rfl⟩ : ∃ jj, j = jj + 1 := ⟨j - 1, by omega⟩
      have hprev2 : cellD q c i jj ≠ Score.negInf := by
        simpa [prevCol] using hprev
      have hs := ihj jj (by omega) i hi (by omega) hprev2
      rw [take_succ_chAt c (jj + 1) hj, List.map_append]
      exact hs.trans (List.sublist_append_left _ _)

/-- C5 counterexample: query "b" does not match candidate "a", yet
`score("b", "a")` is SCORE_MAX, because `get_lengths` treats equal
character counts as an exact match without consulting `has_match`. -/
theorem c5_counterexample :
    has_match [chB] [chA] = false ∧ score [chB] [chA] = some ⟨0, Score.posInf⟩ := by
  constructor
  · rfl
  · rfl

/-- C5 (amended): if the query does not match the candidate, the two
character counts differ, and the candidate is non-empty, then the score is
SCORE_MIN.  (With equal counts the code returns SCORE_MAX — see the
counterexample — and with an empty candidate and non-empty query the
final matrix access panics.) -/
theorem c5_amended (q c : Str) (hne : q.length ≠ c.length) (hcne : c ≠ [])
    (h : has_match q c = false) : score q c = some ⟨0, Score.negInf⟩ := by
  have hq : q ≠ [] := by
    intro hq0
    subst hq0
    simp [has_match] at h
  unfold score score_inner
  by_cases hb : strBytes c > CANDIDATE_MAX_BYTES ∨ strBytes q = 0
  · unfold get_lengths
    rw [if_pos hb]
  · by_cases hcc : c.length > CANDIDATE_MAX_CHARS
    · unfold get_lengths
      rw [if_neg hb, if_neg hne, if_pos hcc]
    · unfold get_lengths
      rw [if_neg hb, if_neg hne, if_neg hcc]
      have hcl : c.length ≠ 0 := by
        simpa using List.length_pos_iff_ne_nil.mpr hcne |>.ne'
      show (if c.length = 0 then none
        else some (⟨0, cellD q c (q.length - 1) (c.length - 1)⟩ : ScoreResult)) =
          some ⟨0, Score.negInf⟩
      rw [if_neg hcl]
      have hql : q.length ≠ 0 := by
        simpa using List.length_pos_iff_ne_nil.mpr hq |>.ne'
      have hD : cellD q c (q.length - 1) (c.length - 1) = Score.negInf := by
        by_contra hD0
        have hsub := cellD_ne_negInf_sublist q c (c.length - 1) (q.length - 1)
          (by omega) (by omega) hD0
        rw [Nat.sub_add_cancel (by omega), Nat.sub_add_cancel (by omega),
          List.take_length, List.take_length] at hsub
        rw [sublist_has_match c q hsub] at h
        exact Bool.true_eq_false.mp h
      rw [hD]

/-- Witness for the amended C5 at query "b" and candidate "aa". -/
theorem c5_amended_witness : score [chB] [chA, chA] = some ⟨0, Score.negInf⟩ :=
  c5_amended [chB] [chA, chA] (by decide) (by decide) (by decide)

theorem Score.negInf_lt_fin (v : ℚ) : Score.lt Score.negInf (Score.fin v) = true := rfl

theorem Score.fin_lt_posInf (v : ℚ) : Score.lt (Score.fin v) Score.posInf = true := rfl

/-- C8 counterexample: the empty query satisfies `has_match`, both caps,
and differs from the candidate after folding, yet its score is SCORE_MIN,
not a finite value — the claim omits the non-empty-query condition. -/
theorem c8_counterexample :
    has_match [] [chA] = true ∧ strBytes [chA] ≤ CANDIDATE_MAX_BYTES ∧
    ([chA] : Str).length ≤ CANDIDATE_MAX_CHARS ∧
    (([] : Str).map Chr.lower ≠ ([chA] : Str).map Chr.lower) ∧
    score [] [chA] = some ⟨0, Score.negInf⟩ := by
  refine ⟨rfl, by decide, by decide, by decide, rfl⟩

/-- C8 (amended): for a non-empty query (at least one byte) that matches
the candidate, with both caps satisfied and the folded code-point
sequences different, the score is strictly between SCORE_MIN and
SCORE_MAX. -/
theorem c8_amended (q c : Str) (hq : 0 < strBytes q) (hm : has_match q c = true)
    (hb : strBytes c ≤ CANDIDATE_MAX_BYTES) (hc : c.length ≤ CANDIDATE_MAX_CHARS)
    (hfold : q.map Chr.lower ≠ c.map Chr.lower) :
    ∃ s : Score, score q c = some ⟨0, s⟩ ∧
      Score.lt Score.negInf s = true ∧ Score.lt s Score.posInf = true := by
  have hsub := has_match_sublist c q hm
  have hlen : q.length < c.length := by
    have hle := hsub.length_le
    rw [List.length_map, List.length_map] at hle
    rcases Nat.lt_or_ge q.length c.length with h | h
    · exact h
    · exfalso
      apply hfold
      exact hsub.eq_of_length_le (by rw [List.length_map, List.length_map]; omega)
  have hget := get_lengths_lengths hb hq (by omega) hc
  have hscore : score q c = some ⟨0, cellD q c (q.length - 1) (c.length - 1)⟩ := by
    unfold score score_inner
    rw [hget]
    show (if c.length = 0 then none
      else some (⟨0, cellD q c (q.length - 1) (c.length - 1)⟩ : ScoreResult)) = _
    rw [if_neg (by omega)]
  rw [hscore]
  have hql : q.length ≠ 0 := by
    intro h0
    rw [List.length_eq_zero] at h0
    subst h0
    simp [strBytes] at hq
  have hfin1 : cellD q c (q.length - 1) (c.length - 1) ≠ Score.negInf := by
    apply sublist_cellD_ne_negInf q c (c.length - 1) (q.length - 1)
      (by omega) (by omega)
    rw [Nat.sub_add_cancel (by omega), Nat.sub_add_cancel (by omega),
      List.take_length, List.take_length]
    exact hsub
  have hfin2 := (cellD_cellM_ne_posInf q c (q.length - 1) (c.length - 1)).1
  cases hcell : cellD q c (q.length - 1) (c.length - 1) with
  | negInf => exact absurd hcell hfin1
  | posInf => exact absurd hcell hfin2
  | fin v => exact ⟨Score.fin v, rfl, Score.negInf_lt_fin v, Score.fin_lt_posInf v⟩

/-- Witness for the amended C8 at query "a" and candidate "ab". -/
theorem c8_amended_witness :
    ∃ s : Score, score [chA] [chA, chB] = some ⟨0, s⟩ ∧
      Score.lt Score.negInf s = true ∧ Score.lt s Score.posInf = true :=
  c8_amended [chA] [chA, chB] (by decide) (by decide) (by decide) (by decide) (by decide)

/-- The bonus vector of spec §4.3 at position `j`, written from the
specification text: `prev` is the character at `j - 1`, taken to be `'/'`
for `j = 0`; an uppercase after a lowercase earns CAPITAL, otherwise the
bonus is decided by `prev` — slash, dot, the word separators space,
hyphen, underscore — and zero in every other case. -/
def specBonus (c : Str) (j : ℕ) : ℚ :=
  let prev := if j = 0 then slashChr else chAt c (j - 1)
  let cur := chAt c j
  if cur.isUpper && prev.isLower then SCORE_MATCH_CAPITAL
  else if prev.code = 47 then SCORE_MATCH_SLASH
  else if prev.code = 46 then SCORE_MATCH_DOT
  else if prev.code = 32 ∨ prev.code = 45 ∨ prev.code = 95 then SCORE_MATCH_WORD
  else 0

theorem bonusesFrom_getD : ∀ (l : Str) (prev : Chr) (j : ℕ), j < l.length →
    (bonusesFrom prev l).getD j 0 =
      character_match_bonus (chAt l j) (if j = 0 then prev else chAt l (j - 1)) := by
  intro l
  induction l with
  | nil => intro prev j h; simp at h
  | cons x xs ih =>
    intro prev j h
    cases j with
    | zero => simp [bonusesFrom, chAt]
    | succ jj =>
      simp only [bonusesFrom, List.getD_cons_succ]
      rw [ih x jj (by simpa using h)]
      cases jj with
      | zero => simp [chAt]
      | succ k => simp [chAt]

theorem bonusAt_eq_specBonus (c : Str) (j : ℕ) (h : j < c.length) :
    bonusAt c j = specBonus c j := by
  unfold bonusAt candidate_match_bonuses specBonus
  rw [bonusesFrom_getD c slashChr j h]
  unfold character_match_bonus is_separator
  cases j with
  | zero => simp [chAt, or_assoc]
  | succ jj => simp [chAt, or_assoc]

/-- The dynamic program of spec §4.4, written from the specification
text: per-row gap is trailing exactly for the last query row; a first-row
match scores `j · SCORE_GAP_LEADING + bonus[j]`; a non-first query
character at candidate position 0 scores SCORE_MIN; any other match takes
the maximum of `D[i−1, j−1] + bonus[j]` and `M[i−1, j−1] +
SCORE_MATCH_CONSECUTIVE` (the consecutive bonus replaces the character
bonus rather than stacking); `D[i, j]` is the maximum of the match score
and the running `prev + gap`, which is also the value on a non-match. -/
def specDP (q c : Str) (i j : ℕ) : Score × Score :=
  let gap : ℚ := if i = q.length - 1 then SCORE_GAP_TRAILING else SCORE_GAP_INNER
  let prev : Score := if _h : j = 0 then Score.negInf else (specDP q c i (j - 1)).1
  if foldEq (chAt q i) (chAt c j) then
    let m : Score :=
      if i = 0 then Score.fin ((j : ℚ) * SCORE_GAP_LEADING + specBonus c j)
      else if _h2 : j = 0 then Score.negInf
      else
        Score.max2 (Score.addq (specDP q c (i - 1) (j - 1)).1 (specBonus c j))
          (Score.addq (specDP q c (i - 1) (j - 1)).2 SCORE_MATCH_CONSECUTIVE)
    (Score.max2 m (Score.addq prev gap), m)
  else (Score.addq prev gap, Score.negInf)
termination_by (i, j)

theorem specDP_eq_cell (q c : Str) : ∀ i j, j < c.length →
    specDP q c i j = (cellD q c i j, cellM q c i j) := by
  intro i
  induction i with
  | zero =>
    intro j
    induction j with
    | zero =>
      intro hj
      unfold specDP
      rw [cellD_eq, cellM_eq]
      by_cases hf : foldEq (chAt q 0) (chAt c 0) = true <;>
        simp [hf, msVal, prevCol, gapScore, bonusAt_eq_specBonus c 0 hj]
    | succ jj ihj =>
      intro hj
      have hjj : jj < c.length := by omega
      unfold specDP
      rw [cellD_eq, cellM_eq]
      simp only [Nat.add_sub_cancel, ihj hjj]
      by_cases hf : foldEq (chAt q 0) (chAt c (jj + 1)) = true <;>
        simp [hf, msVal, prevCol, gapScore, bonusAt_eq_specBonus c (jj + 1) hj]
  | succ ii ihi =>
    intro j
    induction j with
    | zero =>
      intro hj
      unfold specDP
      rw [cellD_eq, cellM_eq]
      by_cases hf : foldEq (chAt q (ii + 1)) (chAt c 0) = true <;>
        simp [hf, msVal, prevCol, gapScore]
    | succ jj ihj =>
      intro hj
      have hjj : jj < c.length := by omega
      unfold specDP
      rw [cellD_eq, cellM_eq]
      simp only [Nat.add_sub_cancel, ihj hjj, ihi jj hjj]
      by_cases hf : foldEq (chAt q (ii + 1)) (chAt c (jj + 1)) = true <;>
        simp [hf, msVal, prevCol, gapScore, bonusAt_eq_specBonus c (jj + 1) hj]

/-- C2: for a valid pair — non-empty query matching the candidate,
candidate byte length at most 2048, query character count strictly below
the candidate's, candidate character count at most 1024 — `score(q, c)`
equals `D[q−1, c−1]` of the §4.4 dynamic program written from the spec
text (`specDP`, over the §4.3 bonus vector `specBonus`): gap per row
(trailing on the last row, inner otherwise), first-row matches scoring
`j·SCORE_GAP_LEADING + bonus[j]`, SCORE_MIN for a non-first query
character at position 0, and the consecutive-match alternative taken as a
maximum with — not added to — the character-bonus alternative. -/
theorem c2_score_eq_spec_dp (q c : Str) (hq : 0 < strBytes q)
    (_hm : has_match q c = true) (hb : strBytes c ≤ CANDIDATE_MAX_BYTES)
    (hlen : q.length < c.length) (hc : c.length ≤ CANDIDATE_MAX_CHARS) :
    score q c = some ⟨0, (specDP q c (q.length - 1) (c.length - 1)).1⟩ := by
  have hget := get_lengths_lengths hb hq (by omega) hc
  unfold score score_inner
  rw [hget]
  show (if c.length = 0 then none
    else some (⟨0, cellD q c (q.length - 1) (c.length - 1)⟩ : ScoreResult)) = _
  rw [if_neg (by omega), specDP_eq_cell q c (q.length - 1) (c.length - 1) (by omega)]

/-- Witness for C2 at query "a" and candidate "ab". -/
theorem c2_score_eq_spec_dp_witness :
    score [chA] [chA, chB] =
      some ⟨0, (specDP [chA] [chA, chB] 0 1).1⟩ :=
  c2_score_eq_spec_dp [chA] [chA, chB] (by decide) (by decide) (by decide)
    (by decide) (by decide)

theorem get_lengths_cases (q c : Str) :
    (∃ s, get_lengths q c = LengthsOrScore.Score s ∧
      (s = Score.negInf ∨ s = Score.posInf)) ∨
    (get_lengths q c = LengthsOrScore.Lengths q.length c.length ∧
      strBytes q ≠ 0 ∧ q.length ≠ c.length) := by
  unfold get_lengths
  by_cases h1 : strBytes c > CANDIDATE_MAX_BYTES ∨ strBytes q = 0
  · rw [if_pos h1]
    exact Or.inl ⟨_, rfl, Or.inl rfl⟩
  · rw [if_neg h1]
    by_cases h2 : q.length = c.length
    · rw [if_pos h2]
      exact Or.inl ⟨_, rfl, Or.inr rfl⟩
    · rw [if_neg h2]
      by_cases h3 : c.length > CANDIDATE_MAX_CHARS
      · rw [if_pos h3]
        exact Or.inl ⟨_, rfl, Or.inl rfl⟩
      · rw [if_neg h3]
        exact Or.inr ⟨rfl, fun h0 => h1 (Or.inr h0), h2⟩

theorem max2_negInf_cases {a : Score} (h : Score.max2 a Score.negInf ≠ Score.negInf) :
    Score.max2 a Score.negInf = a ∧ a ≠ Score.negInf := by
  rcases Score.max2_eq_or a Score.negInf with he | he
  · refine ⟨he, ?_⟩
    intro h0
    rw [he, h0] at h
    exact h rfl
  · exact absurd he h

theorem exists_findCol (q c : Str) (i : ℕ) : ∀ s, cellD q c i s ≠ Score.negInf →
    ∃ j, findCol q c i s = some j := by
  intro s
  induction s with
  | zero =>
    intro h
    have hD := cellD_eq q c i 0
    have hM := cellM_eq q c i 0
    have hgood : goodCell q c i 0 = true := by
      by_cases hm : foldEq (chAt q i) (chAt c 0) = true
      · rw [if_pos hm] at hD hM
        have hpg : Score.addq (prevCol q c i 0) (gapScore q i) = Score.negInf := by
          simp [prevCol, Score.addq]
        rw [hpg] at hD
        have h2 := h
        rw [hD] at h2
        obtain ⟨he, hne⟩ := max2_negInf_cases h2
        simp [goodCell, hM, hD, he, hne]
      · rw [if_neg hm] at hD
        exfalso
        apply h
        rw [hD]
        simp [prevCol, Score.addq]
    exact ⟨0, by simp [findCol, hgood]⟩
  | succ s ih =>
    intro h
    by_cases hgood : goodCell q c i (s + 1) = true
    · exact ⟨s + 1, by simp [findCol, hgood]⟩
    · have hDs : cellD q c i s ≠ Score.negInf := by
        have hD := cellD_eq q c i (s + 1)
        have hM := cellM_eq q c i (s + 1)
        have hprev : prevCol q c i (s + 1) = cellD q c i s := by simp [prevCol]
        by_cases hm : foldEq (chAt q i) (chAt c (s + 1)) = true
        · rw [if_pos hm] at hD hM
          rcases Score.max2_eq_or (msVal q c i (s + 1))
              (Score.addq (prevCol q c i (s + 1)) (gapScore q i)) with he | he
          · exfalso
            apply hgood
            have hDne := h
            rw [hD, he] at hDne
            simp [goodCell, hM, hD, he, hDne]
          · intro h0
            apply h
            rw [hD, he, hprev, h0]
            rfl
        · rw [if_neg hm] at hD
          intro h0
          apply h
          rw [hD, hprev, h0]
          rfl
      obtain ⟨j, hj⟩ := ih hDs
      exact ⟨j, by simp [findCol, hgood, hj]⟩

theorem findCol_some (q c : Str) (i : ℕ) : ∀ s j, findCol q c i s = some j →
    goodCell q c i j = true ∧ j ≤ s := by
  intro s
  induction s with
  | zero =>
    intro j hj
    by_cases hgood : goodCell q c i 0 = true
    · simp [findCol, hgood] at hj
      subst hj
      exact ⟨hgood, Nat.le_refl 0⟩
    · simp [findCol, hgood] at hj
  | succ s ih =>
    intro j hj
    by_cases hgood : goodCell q c i (s + 1) = true
    · simp [findCol, hgood] at hj
      subst hj
      exact ⟨hgood, Nat.le_refl _⟩
    · simp [findCol, hgood] at hj
      obtain ⟨hg, hle⟩ := ih j hj
      exact ⟨hg, hle.trans (Nat.le_succ s)⟩

theorem goodCell_spec {q c : Str} {i j : ℕ} (h : goodCell q c i j = true) :
    foldEq (chAt q i) (chAt c j) = true ∧ cellD q c i j ≠ Score.negInf ∧
    (∀ ii, i = ii + 1 → ∃ jj, j = jj + 1 ∧ cellD q c ii jj ≠ Score.negInf) := by
  have hM : cellM q c i j ≠ Score.negInf ∧ cellM q c i j = cellD q c i j := by
    simpa [goodCell] using h
  obtain ⟨hMne, hMD⟩ := hM
  have hmatch : foldEq (chAt q i) (chAt c j) = true := by
    by_contra hc2
    rw [cellM_eq, if_neg hc2] at hMne
    exact hMne rfl
  refine ⟨hmatch, hMD ▸ hMne, ?_⟩
  intro ii hii
  subst hii
  have hms : msVal q c (ii + 1) j ≠ Score.negInf := by
    rw [cellM_eq, if_pos hmatch] at hMne
    exact hMne
  have hj0 : j ≠ 0 := by
    intro hj0
    subst hj0
    simp [msVal] at hms
  obtain ⟨jj, rfl⟩ : ∃ jj, j = jj + 1 := ⟨j - 1, by omega⟩
  refine ⟨jj, rfl, ?_⟩
  have hmsv : msVal q c (ii + 1) (jj + 1) =
      Score.max2 (Score.addq (cellD q c ii jj) (bonusAt c (jj + 1)))
        (Score.addq (cellM q c ii jj) SCORE_MATCH_CONSECUTIVE) := by
    simp [msVal]
  rw [hmsv] at hms
  by_contra hD0
  apply hms
  have hM0 : cellM q c ii jj = Score.negInf := by
    have hle := cellM_le_cellD q c ii jj
    rw [hD0] at hle
    exact Score.eq_negInf_of_le hle
  rw [hD0, hM0]
  rfl

theorem foldEq_lower {a b : Chr} (h : foldEq a b = true) : a.lower = b.lower := by
  simpa [foldEq] using h

/-- Correctness of the `locate_inner` backward walk: from a finite
starting cell it emits one strictly decreasing position per query row,
each fold-matching its row's query character. -/
theorem walk_spec (q c : Str) : ∀ i s, cellD q c i s ≠ Score.negInf →
    (walkPositions q c i s).length = i + 1 ∧
    (∀ p ∈ walkPositions q c i s, p ≤ s) ∧
    List.Pairwise (fun a b => b < a) (walkPositions q c i s) ∧
    (walkPositions q c i s).reverse.map (fun p => (chAt c p).lower) =
      (List.range (i + 1)).map (fun t => (chAt q t).lower) := by
  intro i
  induction i with
  | zero =>
    intro s h
    obtain ⟨j, hj⟩ := exists_findCol q c 0 s h
    obtain ⟨hg, hle⟩ := findCol_some q c 0 s j hj
    obtain ⟨hmatch, _, _⟩ := goodCell_spec hg
    have hw : walkPositions q c 0 s = [j] := by
      simp [walkPositions, hj]
    rw [hw]
    refine ⟨rfl, ?_, ?_, ?_⟩
    · intro p hp
      rw [List.mem_singleton] at hp
      subst hp
      exact hle
    · simp
    · have hlow := foldEq_lower hmatch
      simp [List.range_succ, hlow]
  | succ ii ih =>
    intro s h
    obtain ⟨j, hj⟩ := exists_findCol q c (ii + 1) s h
    obtain ⟨hg, hle⟩ := findCol_some q c (ii + 1) s j hj
    obtain ⟨hmatch, _, hstep⟩ := goodCell_spec hg
    obtain ⟨jj, rfl, hDjj⟩ := hstep ii rfl
    have hw : walkPositions q c (ii + 1) s = (jj + 1) :: walkPositions q c ii jj := by
      simp [walkPositions, hj]
    obtain ⟨ihlen, ihbound, ihpair, ihmap⟩ := ih jj hDjj
    rw [hw]
    refine ⟨by simp [ihlen], ?_, ?_, ?_⟩
    · intro p hp
      rcases List.mem_cons.mp hp with rfl | hp2
      · exact hle
      · exact ((ihbound p hp2).trans (Nat.le_succ jj)).trans hle
    · rw [List.pairwise_cons]
      exact ⟨fun b hb => Nat.lt_succ_of_le (ihbound b hb), ihpair⟩
    · have hr : List.range (ii + 1 + 1) = List.range (ii + 1) ++ [ii + 1] := List.range_succ (ii + 1)
      rw [List.reverse_cons, List.map_append, ihmap, hr, List.map_append]
      simp [foldEq_lower hmatch]

theorem foldl_set_length : ∀ (ps : List ℕ) (m : List Bool),
    (ps.foldl (fun m j => m.set j true) m).length = m.length := by
  intro ps
  induction ps with
  | nil => intro m; rfl
  | cons p ps ih =>
    intro m
    rw [List.foldl_cons, ih, List.length_set]

theorem foldl_set_getD : ∀ (ps : List ℕ) (m : List Bool) (j : ℕ), j < m.length →
    ((ps.foldl (fun m j => m.set j true) m).getD j false = true ↔
      j ∈ ps ∨ m.getD j false = true) := by
  intro ps
  induction ps with
  | nil => intro m j _; simp
  | cons p ps ih =>
    intro m j hj
    rw [List.foldl_cons, ih (m.set p true) j (by rw [List.length_set]; exact hj)]
    have hset : (m.set p true).getD j false = true ↔ (p = j ∨ m.getD j false = true) := by
      rw [List.getD_eq_getElem?_getD, List.getD_eq_getElem?_getD, List.getElem?_set]
      by_cases hpj : p = j
      · subst hpj
        simp [hj, Nat.lt_of_lt_of_le hj (Nat.le_refl _)]
      · simp [hpj]
    rw [hset]
    constructor
    · rintro (h | hp | hm)
      · exact Or.inl (List.mem_cons_of_mem p h)
      · exact Or.inl (hp ▸ List.mem_cons_self p ps)
      · exact Or.inr hm
    · rintro (h | hm)
      · rcases List.mem_cons.mp h with rfl | h2
        · exact Or.inr (Or.inl rfl)
        · exact Or.inl h2
      · exact Or.inr (Or.inr hm)

theorem count_true_eq_filter : ∀ m : List Bool,
    m.count true = ((List.range m.length).filter (fun j => m.getD j false)).length := by
  intro m
  induction m with
  | nil => rfl
  | cons b m ih =>
    rw [List.count_cons, List.length_cons, List.range_succ_eq_map, List.filter_cons]
    have hmap : ((List.range m.length).map (fun k => k + 1)).filter
        (fun j => (b :: m).getD j false) =
        ((List.range m.length).filter (fun j => m.getD j false)).map (fun k => k + 1) := by
      rw [List.filter_map]
      congr 1
    rw [hmap]
    cases b <;> simp [ih, Nat.add_comm]

theorem filter_range_of_desc : ∀ (n : ℕ) (ps : List ℕ),
    List.Pairwise (fun a b => b < a) ps → (∀ p ∈ ps, p < n) →
    (List.range n).filter (fun j => decide (j ∈ ps)) = ps.reverse := by
  intro n
  induction n with
  | zero =>
    intro ps _ hb
    cases ps with
    | nil => rfl
    | cons p ps => exact absurd (hb p (List.mem_cons_self p ps)) (by omega)
  | succ n ih =>
    intro ps hp hb
    rw [List.range_succ, List.filter_append]
    cases ps with
    | nil =>
      simp
    | cons p pstail =>
      have hmax : ∀ x ∈ pstail, x < p := (List.pairwise_cons.mp hp).1
      by_cases hpn : p = n
      · subst hpn
        have hmem : (p ∈ p :: pstail) := List.mem_cons_self p pstail
        have hfilter1 : ([p].filter (fun j => decide (j ∈ p :: pstail))) = [p] := by
          simp [hmem]
        have hfilter2 : (List.range p).filter (fun j => decide (j ∈ p :: pstail)) =
            (List.range p).filter (fun j => decide (j ∈ pstail)) := by
          apply List.filter_congr
          intro x hx
          have hxp : x ≠ p := by
            have := List.mem_range.mp hx
            omega
          simp [hxp]
        rw [hfilter1, hfilter2, ih pstail (List.pairwise_cons.mp hp).2 hmax,
          List.reverse_cons]
      · have hplt : p < n := by
          have := hb p (List.mem_cons_self p pstail)
          omega
        have hnotmem : (n ∉ p :: pstail) := by
          intro hmem
          rcases List.mem_cons.mp hmem with rfl | h2
          · omega
          · have := hmax n h2
            omega
        have hfilter1 : ([n].filter (fun j => decide (j ∈ p :: pstail))) = [] := by
          have h1 : n ≠ p := fun he => hnotmem (he ▸ List.mem_cons_self p pstail)
          have h2 : n ∉ pstail := fun hm2 => hnotmem (List.mem_cons_of_mem p hm2)
          simp [h1, h2]
        rw [hfilter1, ih (p :: pstail) hp
          (fun x hx => by
            rcases List.mem_cons.mp hx with rfl | h2
            · omega
            · have := hmax x h2
              omega)]
        exact List.append_nil _

theorem range_map_chAt (l : Str) :
    (List.range l.length).map (fun t => (chAt l t).lower) = l.map Chr.lower := by
  induction l with
  | nil => rfl
  | cons x xs ih =>
    rw [List.length_cons, List.range_succ_eq_map, List.map_cons, List.map_map, List.map_cons]
    congr 1

/-- C6: every LocateResult returned by `locate(q, c)` whose score is
finite (neither SCORE_MIN nor SCORE_MAX) has exactly `char_length(q)`
bits of its match mask set, and reading the candidate's characters at the
set positions in ascending order reproduces the query under case
folding. -/
theorem c6_locate_mask (q c : Str) (r : LocateResult) (h : locate q c = some r)
    (h1 : r.score ≠ Score.negInf) (h2 : r.score ≠ Score.posInf) :
    r.match_mask.count true = q.length ∧
    ((List.range c.length).filter (fun j => r.match_mask.getD j false)).map
        (fun j => (chAt c j).lower) = q.map Chr.lower := by
  unfold locate locate_inner at h
  rcases get_lengths_cases q c with ⟨s, hget, hs⟩ | ⟨hget, hqb, _⟩
  · rw [hget] at h
    have hr : r = ⟨0, s, if s = Score.posInf then List.replicate c.length true
        else List.replicate c.length false⟩ := ((Option.some.injEq _ _).mp h).symm
    rcases hs with rfl | rfl
    · rw [hr] at h1
      exact absurd rfl h1
    · rw [hr] at h2
      exact absurd rfl h2
  · rw [hget] at h
    have h3 : (if c.length = 0 then none
        else some (⟨0, cellD q c (q.length - 1) (c.length - 1),
          (walkPositions q c (q.length - 1) (c.length - 1)).foldl
            (fun m j => m.set j true) (List.replicate c.length false)⟩ :
          LocateResult)) = some r := h
    have hq0 : q ≠ [] := by
      intro h0
      subst h0
      exact hqb rfl
    have hql : 0 < q.length := List.length_pos.mpr hq0
    by_cases hcl : c.length = 0
    · rw [if_pos hcl] at h3
      exact absurd h3 (by simp)
    · rw [if_neg hcl] at h3
      have hr : r = ⟨0, cellD q c (q.length - 1) (c.length - 1),
          (walkPositions q c (q.length - 1) (c.length - 1)).foldl
            (fun m j => m.set j true) (List.replicate c.length false)⟩ :=
        ((Option.some.injEq _ _).mp h3).symm
      subst hr
      have hD : cellD q c (q.length - 1) (c.length - 1) ≠ Score.negInf := h1
      obtain ⟨hlen, hbound, hpair, hmap⟩ :=
        walk_spec q c (q.length - 1) (c.length - 1) hD
      set ps := walkPositions q c (q.length - 1) (c.length - 1) with hps
      set mask := ps.foldl (fun m j => m.set j true)
        (List.replicate c.length false) with hmask
      have hmlen : mask.length = c.length := by
        rw [hmask, foldl_set_length, List.length_replicate]
      have hbound2 : ∀ p ∈ ps, p < c.length := by
        intro p hp
        have := hbound p hp
        omega
      have hgetD : ∀ j < c.length, mask.getD j false = decide (j ∈ ps) := by
        intro j hj
        have hiff := foldl_set_getD ps (List.replicate c.length false) j
          (by rw [List.length_replicate]; exact hj)
        have hrep : (List.replicate c.length false).getD j false = false := by
          rw [List.getD_eq_getElem?_getD, List.getElem?_replicate]
          simp [hj]
        rw [hrep] at hiff
        simp only [Bool.false_eq_true, or_false] at hiff
        by_cases hmem : j ∈ ps
        · rw [hiff.mpr hmem]
          simp [hmem]
        · have hgf : mask.getD j false ≠ true := fun hgt => hmem (hiff.mp hgt)
          rw [Bool.eq_false_iff.mpr hgf]
          simp [hmem]
      have hfeq : (List.range c.length).filter (fun j => mask.getD j false) =
          (List.range c.length).filter (fun j => decide (j ∈ ps)) :=
        List.filter_congr (fun x hx => hgetD x (List.mem_range.mp hx))
      have hfilter := filter_range_of_desc c.length ps hpair hbound2
      constructor
      · have hcount := count_true_eq_filter mask
        rw [hmlen] at hcount
        show mask.count true = q.length
        rw [hcount, hfeq, hfilter, List.length_reverse, hlen]
        omega
      · show ((List.range c.length).filter (fun j => mask.getD j false)).map
            (fun j => (chAt c j).lower) = q.map Chr.lower
        rw [hfeq, hfilter, hmap]
        have hq1 : q.length - 1 + 1 = q.length := by omega
        rw [hq1, range_map_chAt]

/-- Witness for C6 at query "a" and candidate "ba". -/
theorem c6_locate_mask_witness :
    (⟨0, Score.fin SCORE_GAP_LEADING, [false, true]⟩ : LocateResult).match_mask.count true =
      ([chA] : Str).length ∧
    ((List.range ([chB, chA] : Str).length).filter
        (fun j => (⟨0, Score.fin SCORE_GAP_LEADING, [false, true]⟩ :
          LocateResult).match_mask.getD j false)).map
        (fun j => (chAt [chB, chA] j).lower) = ([chA] : Str).map Chr.lower := by
  have hloc : locate [chA] [chB, chA] =
      some ⟨0, Score.fin SCORE_GAP_LEADING, [false, true]⟩ := by
    simp [locate, locate_inner, get_lengths, strBytes, chA, chB, CANDIDATE_MAX_BYTES,
      CANDIDATE_MAX_CHARS, walkPositions, findCol, goodCell, cellD, cellM, rowOf, rowCell,
      mkCell, foldEq, chAt, defaultChr, gapScore, bonusAt, candidate_match_bonuses,
      bonusesFrom, character_match_bonus, is_separator, slashChr, Score.max2, Score.le,
      Score.addq, List.replicate]
  exact c6_locate_mask [chA] [chB, chA] ⟨0, Score.fin SCORE_GAP_LEADING, [false, true]⟩
    hloc (by simp) (by simp)

/-- C4: `has_match(q, c)` returns true iff every character of the query
appears in the candidate in the same order (not necessarily adjacent),
characters compared by case-insensitive equality of Unicode code points:
the case-folded query is a sublist of the case-folded candidate. -/
theorem c4_has_match_iff (q c : Str) :
    has_match q c = true ↔ List.Sublist (q.map Chr.lower) (c.map Chr.lower) :=
  ⟨has_match_sublist c q, sublist_has_match c q⟩

/-- C1 is refuted by the code: with five candidates "a" and parallelism 2,
`calculate_parallelism` yields 2 and the per-thread share is
`ceil_div 5 2 = 3`.  The sharding loop spawns one worker on the first
three candidates; for the remaining two it executes
`remaining_candidates = 0` and then splits at that already-zeroed value,
so the second worker receives an empty slice and the last two candidates
are never searched.  The parallel search returns 3 results where the
serial search returns 5. -/
theorem c1_parallel_drops_candidates :
    (search_score [chA] [[chA], [chA], [chA], [chA], [chA]] 2).length = 3 ∧
    (search_serial [chA] [[chA], [chA], [chA], [chA], [chA]]).length = 5 := by
  constructor
  · show (kmergeAll ((shardLoop (ceil_div 5 2) 5 [[chA], [chA], [chA], [chA], [chA]] 0).map
      (fun sh => search_worker [chA] sh.1 sh.2))).length = 3
    have hshard : shardLoop (ceil_div 5 2) 5 [[chA], [chA], [chA], [chA], [chA]] 0 =
        [([[chA], [chA], [chA]], 0), ([], 3)] := by
      have hc : ceil_div 5 2 = 3 := rfl
      rw [hc]
      rw [shardLoop]
      simp only [List.take, List.drop]
      rw [shardLoop]
      simp
    rw [hshard]
    have hb0 : search_worker [chA] [[chA], [chA], [chA]] 0 =
        [⟨0, Score.posInf⟩, ⟨1, Score.posInf⟩, ⟨2, Score.posInf⟩] := rfl
    have hb1 : search_worker [chA] ([] : List Str) 3 = [] := rfl
    show (kmergeAll [search_worker [chA] [[chA], [chA], [chA]] 0,
      search_worker [chA] ([] : List Str) 3]).length = 3
    rw [hb0, hb1]
    unfold kmergeAll
    rw [List.foldl_cons, List.foldl_cons, List.foldl_nil]
    have h1 : merge2 [] [⟨0, Score.posInf⟩, ⟨1, Score.posInf⟩, ⟨2, Score.posInf⟩] =
        [⟨0, Score.posInf⟩, ⟨1, Score.posInf⟩, ⟨2, Score.posInf⟩] := by
      simp [merge2]
    have h2 : merge2 [⟨0, Score.posInf⟩, ⟨1, Score.posInf⟩, ⟨2, Score.posInf⟩] [] =
        [⟨0, Score.posInf⟩, ⟨1, Score.posInf⟩, ⟨2, Score.posInf⟩] := by
      simp [merge2]
    rw [h1, h2]
    rfl
  · rfl
